import Mathlib

/-!
Verification of the MYCIN-style certainty-factor (CF) reasoning module
(`src/back-end/src/certainty_factors.py`) against its specification.

The Python module is pure: every function here is a direct shallow embedding.
Python floats are modelled as rationals (ℚ); the arithmetic used by the module
(addition, multiplication, division, `min`, `max`, `abs`, comparisons) is exact
on the concrete decimal inputs the claims mention.  Python dictionaries of
facts are modelled as association lists with first-match lookup and
replace-or-append assignment, which reproduces dict key semantics.  Raised
`ValueError`s are modelled with an `Except` error channel carrying a structured
error whose payload is exactly the data interpolated into the Python message.
-/

namespace CertaintyFactors

/-- Embeds `clamp_cf`: clamp a certainty factor value to the interval [-1, 1].
Python: `return max(-1.0, min(1.0, x))`. -/
def clamp_cf (x : ℚ) : ℚ := max (-1) (min 1 x)

/-- Embeds `cf_and`: minimum of the list, or 0 for the empty list.
Python: `return min(cfs) if cfs else 0.0`. -/
def cf_and : List ℚ → ℚ
  | [] => 0
  | c :: cs => cs.foldl min c

/-- Embeds `cf_or`: maximum of the list, or 0 for the empty list.
Python: `return max(cfs) if cfs else 0.0`. -/
def cf_or : List ℚ → ℚ
  | [] => 0
  | c :: cs => cs.foldl max c

/-- Structured model of the `ValueError`s raised by the module.  Each
constructor corresponds to one Python `raise` site and carries exactly the
data interpolated into that message (the spec's error taxonomy names the
rule-strength condition `InvalidRuleStrength` and the operator condition
`InvalidOperator`):
* `invalidOperator op` — `evaluate_rules`: "Invalid operator ... Must be ..."
  (mentions only the operator string, line 166);
* `invalidRuleStrength id cf` — `evaluate_rules`: "Rule {id} has invalid
  rule_cf: {cf}" (line 168);
* `scaleOutOfRange cf` — `apply_rule`: "rule_cf must be in [0, 1], got {cf}"
  (line 72). -/
inductive CFError where
  | invalidOperator (op : String)
  | invalidRuleStrength (ruleId : String) (cf : ℚ)
  | scaleOutOfRange (cf : ℚ)
deriving DecidableEq, Repr

/-- The exact text of the Python `ValueError` message for each error (the
numeric rendering of a rational differs from Python float formatting, which no
claim depends on; the string structure and every interpolated identifier are
as in the source). -/
def errMessage : CFError → String
  | .invalidOperator op =>
      "Invalid operator \x27" ++ op ++ "\x27. Must be \x27AND\x27 or \x27OR\x27."
  | .invalidRuleStrength ruleId cf =>
      "Rule " ++ ruleId ++ " has invalid rule_cf: " ++ toString cf
  | .scaleOutOfRange cf =>
      "rule_cf must be in [0, 1], got " ++ toString cf

/-- Embeds `apply_rule`: raises when `rule_cf` is outside [0, 1], otherwise
returns `clamp_cf (evidence_cf * rule_cf)`. -/
def apply_rule (evidence_cf rule_cf : ℚ) : Except CFError ℚ :=
  if ¬ (0 ≤ rule_cf ∧ rule_cf ≤ 1) then
    .error (.scaleOutOfRange rule_cf)
  else
    .ok (clamp_cf (evidence_cf * rule_cf))

/-- The denominator `1.0 - min(abs(cf1), abs(cf2))` computed in the
mixed-sign branch of `cf_combine` (local variable `denominator`). -/
def mixedDenominator (cf1 cf2 : ℚ) : ℚ := 1 - min |cf1| |cf2|

/-- Embeds `cf_combine` (the spec's `serialCombine`), the MYCIN combination
rule, branch for branch:
both strictly positive → `cf1 + cf2 * (1 - cf1)`;
both strictly negative → `cf1 + cf2 * (1 + cf1)`;
otherwise the mixed-sign branch divides `cf1 + cf2` by `mixedDenominator`
unless that denominator is zero, in which case it falls back to
`clamp_cf (cf1 + cf2)`; the chosen result is clamped before returning. -/
def cf_combine (cf1 cf2 : ℚ) : ℚ :=
  clamp_cf
    (if cf1 > 0 ∧ cf2 > 0 then
      cf1 + cf2 * (1 - cf1)
    else if cf1 < 0 ∧ cf2 < 0 then
      cf1 + cf2 * (1 + cf1)
    else
      if mixedDenominator cf1 cf2 = 0 then
        clamp_cf (cf1 + cf2)
      else
        (cf1 + cf2) / mixedDenominator cf1 cf2)

/-- Embeds the `Rule` dataclass: one implication of the expert system. -/
structure Rule where
  id : String
  premises : List String
  operator : String
  rule_cf : ℚ
  conclusion : String
deriving DecidableEq, Repr

/-- Embeds the per-rule trace record appended by `evaluate_rules` (the dict
literal at lines 196–207 of the source, one field per key). -/
structure TraceEntry where
  rule_id : String
  operator : String
  premises : List String
  premise_cfs : List ℚ
  premise_cf : ℚ
  rule_cf : ℚ
  conclusion : String
  contrib_cf : ℚ
  previous_conclusion_cf : Option ℚ
  new_conclusion_cf : ℚ
deriving DecidableEq, Repr

/-- The fact mapping (Python `dict[str, float]`), modelled as an association
list: first-match lookup, replace-or-append assignment. -/
abbrev Facts := List (String × ℚ)

/-- Dictionary lookup (`facts.get(name)` / `name in facts`): the value of the
first entry carrying the key, if any. -/
def lookupFact : Facts → String → Option ℚ
  | [], _ => none
  | (k, v) :: rest, name => if name = k then some v else lookupFact rest name

/-- Dictionary assignment (`facts[name] = value`): overwrite the value of the
existing entry for the key, or append a fresh entry. -/
def setFact : Facts → String → ℚ → Facts
  | [], name, value => [(name, value)]
  | (k, v) :: rest, name, value =>
      if name = k then (k, value) :: rest else (k, v) :: setFact rest name value

/-- The list `premise_cfs = [facts[premise] for premise in rule.premises]`
(`evaluate_rules` only builds it after checking every premise is present, so
the `getD 0` default is never exercised there). -/
def premiseCfs (facts : Facts) (rule : Rule) : List ℚ :=
  rule.premises.map (fun p => (lookupFact facts p).getD 0)

/-- The combined premise CF: `cf_and` under the AND operator, `cf_or`
otherwise (`evaluate_rules` lines 178–181). -/
def premiseCf (facts : Facts) (rule : Rule) : ℚ :=
  if rule.operator = "AND" then cf_and (premiseCfs facts rule)
  else cf_or (premiseCfs facts rule)

/-- The contribution CF a rule with valid `rule_cf` produces:
`apply_rule(premise_cf, rule.rule_cf)` on its success path. -/
def contribCf (facts : Facts) (rule : Rule) : ℚ :=
  clamp_cf (premiseCf facts rule * rule.rule_cf)

/-- The updated conclusion CF (`evaluate_rules` lines 187–191): combine with
the existing value via `cf_combine` when the conclusion fact exists, otherwise
take the contribution directly. -/
def newConclusionCf (facts : Facts) (rule : Rule) : ℚ :=
  match lookupFact facts rule.conclusion with
  | some old => cf_combine old (contribCf facts rule)
  | none => contribCf facts rule

/-- The trace record a firing rule appends, with every field as computed by
`evaluate_rules` from the current fact mapping. -/
def mkTraceEntry (facts : Facts) (rule : Rule) : TraceEntry :=
  { rule_id := rule.id
    operator := rule.operator
    premises := rule.premises
    premise_cfs := premiseCfs facts rule
    premise_cf := premiseCf facts rule
    rule_cf := rule.rule_cf
    conclusion := rule.conclusion
    contrib_cf := contribCf facts rule
    previous_conclusion_cf := lookupFact facts rule.conclusion
    new_conclusion_cf := newConclusionCf facts rule }

/-- One iteration of the `for rule in rules` loop of `evaluate_rules`:
validate the operator, then the rule strength (raising in the stated order),
skip the rule when a premise is missing, otherwise apply the rule through
`apply_rule` and update the conclusion fact and the trace. -/
def evalStep (facts : Facts) (trace : List TraceEntry) (rule : Rule) :
    Except CFError (Facts × List TraceEntry) :=
  if ¬ (rule.operator = "AND" ∨ rule.operator = "OR") then
    .error (.invalidOperator rule.operator)
  else if ¬ (0 ≤ rule.rule_cf ∧ rule.rule_cf ≤ 1) then
    .error (.invalidRuleStrength rule.id rule.rule_cf)
  else if ¬ (rule.premises.all fun p => (lookupFact facts p).isSome) then
    .ok (facts, trace)
  else
    match apply_rule (premiseCf facts rule) rule.rule_cf with
    | .error e => .error e
    | .ok contrib =>
        let previous := lookupFact facts rule.conclusion
        let newCf :=
          match previous with
          | some old => cf_combine old contrib
          | none => contrib
        .ok (setFact facts rule.conclusion newCf,
          trace ++ [{ rule_id := rule.id
                      operator := rule.operator
                      premises := rule.premises
                      premise_cfs := premiseCfs facts rule
                      premise_cf := premiseCf facts rule
                      rule_cf := rule.rule_cf
                      conclusion := rule.conclusion
                      contrib_cf := contrib
                      previous_conclusion_cf := previous
                      new_conclusion_cf := newCf }])

/-- The loop of `evaluate_rules`, threading the running fact mapping and
trace through the rule list; a raise aborts the remainder. -/
def evalRulesAux (facts : Facts) (trace : List TraceEntry) :
    List Rule → Except CFError (Facts × List TraceEntry)
  | [] => .ok (facts, trace)
  | rule :: rest =>
      match evalStep facts trace rule with
      | .error e => .error e
      | .ok (facts2, trace2) => evalRulesAux facts2 trace2 rest

/-- Embeds `evaluate_rules`: build a fresh fact mapping by clamping every
evidence value (the caller-supplied mapping itself is never touched), then run
the rule loop starting from an empty trace. -/
def evaluate_rules (evidence : Facts) (rules : List Rule) :
    Except CFError (Facts × List TraceEntry) :=
  evalRulesAux (evidence.map (fun kv => (kv.1, clamp_cf kv.2))) [] rules

/-- The model-prediction items consumed by `build_evidence_from_model`: dicts
read with `item.get("label", "")` and `item.get("prob", 0.0)`, so either key
may be absent. -/
structure TopkItem where
  label : Option String
  prob : Option ℚ
deriving DecidableEq, Repr

/-- Python `str.strip()`: remove leading and trailing whitespace (structural
recursion over the character list, so that concrete instances compute). -/
def stripStr (s : String) : String :=
  ⟨((s.data.dropWhile Char.isWhitespace).reverse.dropWhile
      Char.isWhitespace).reverse⟩

/-- The fact name `build_evidence_from_model` assigns to an item:
`f"img_{label}"` with the label read by `item.get("label", "").strip()`. -/
def factName (item : TopkItem) : String :=
  "img_" ++ stripStr (item.label.getD "")

/-- The fact value `build_evidence_from_model` assigns to an item:
`clamp_cf` of the probability `item.get("prob", 0.0)` clamped to [0, 1]. -/
def factValue (item : TopkItem) : ℚ :=
  clamp_cf (max 0 (min 1 (item.prob.getD 0)))

/-- Embeds `build_evidence_from_model`: for each item in order, assign its
`factValue` to its `factName` in the evidence mapping (later items overwrite
earlier ones through dict assignment). -/
def build_evidence_from_model (topk : List TopkItem) : Facts :=
  topk.foldl (fun evidence item => setFact evidence (factName item)
    (factValue item)) []

/-- A rule passing the validation at the top of the loop body: recognised
operator and rule strength within [0, 1]. -/
def validRule (rule : Rule) : Prop :=
  (rule.operator = "AND" ∨ rule.operator = "OR") ∧
    0 ≤ rule.rule_cf ∧ rule.rule_cf ≤ 1

instance (rule : Rule) : Decidable (validRule rule) := by
  unfold validRule; infer_instance

/-- A certainty factor within the closed interval [-1, 1]. -/
def inCF (x : ℚ) : Prop := -1 ≤ x ∧ x ≤ 1

instance (x : ℚ) : Decidable (inCF x) := by
  unfold inCF; infer_instance

/-! ### Basic lemmas about the CF algebra -/

theorem clamp_cf_mem (x : ℚ) : inCF (clamp_cf x) :=
  ⟨le_max_left _ _, max_le (by norm_num) (min_le_left _ _)⟩

theorem clamp_cf_of_mem {x : ℚ} (h : inCF x) : clamp_cf x = x := by
  unfold clamp_cf
  rw [min_eq_right h.2, max_eq_right h.1]

theorem clamp_cf_idem (x : ℚ) : clamp_cf (clamp_cf x) = clamp_cf x :=
  clamp_cf_of_mem (clamp_cf_mem x)

theorem cf_combine_mem (a b : ℚ) : inCF (cf_combine a b) := clamp_cf_mem _

theorem inCF_foldl_min {l : List ℚ} {a : ℚ} (ha : inCF a)
    (hl : ∀ x ∈ l, inCF x) : inCF (l.foldl min a) := by
  induction l generalizing a with
  | nil => exact ha
  | cons c cs ih =>
      refine ih ⟨le_min ha.1 (hl c (by simp)).1, (min_le_left _ _).trans ha.2⟩
        (fun x hx => hl x (by simp [hx]))

theorem inCF_foldl_max {l : List ℚ} {a : ℚ} (ha : inCF a)
    (hl : ∀ x ∈ l, inCF x) : inCF (l.foldl max a) := by
  induction l generalizing a with
  | nil => exact ha
  | cons c cs ih =>
      refine ih ⟨ha.1.trans (le_max_left _ _), max_le ha.2 (hl c (by simp)).2⟩
        (fun x hx => hl x (by simp [hx]))

theorem cf_and_mem {l : List ℚ} (hl : ∀ x ∈ l, inCF x) : inCF (cf_and l) := by
  cases l with
  | nil => exact ⟨by norm_num [cf_and], by norm_num [cf_and]⟩
  | cons c cs =>
      exact inCF_foldl_min (hl c (by simp)) (fun x hx => hl x (by simp [hx]))

theorem cf_or_mem {l : List ℚ} (hl : ∀ x ∈ l, inCF x) : inCF (cf_or l) := by
  cases l with
  | nil => exact ⟨by norm_num [cf_or], by norm_num [cf_or]⟩
  | cons c cs =>
      exact inCF_foldl_max (hl c (by simp)) (fun x hx => hl x (by simp [hx]))

/-! ### Basic lemmas about the fact mapping -/

theorem lookupFact_setFact_self (f : Facts) (k : String) (v : ℚ) :
    lookupFact (setFact f k v) k = some v := by
  induction f with
  | nil => simp [setFact, lookupFact]
  | cons kv rest ih =>
      by_cases h : k = kv.1
      · simp [setFact, lookupFact, h]
      · simp [setFact, lookupFact, h, ih]

theorem lookupFact_setFact_ne (f : Facts) {k k2 : String} (v : ℚ)
    (h : k2 ≠ k) : lookupFact (setFact f k v) k2 = lookupFact f k2 := by
  induction f with
  | nil => simp [setFact, lookupFact, h]
  | cons kv rest ih =>
      by_cases hk : k = kv.1
      · subst hk
        simp [setFact, lookupFact, h]
      · by_cases hk2 : k2 = kv.1
        · simp [setFact, lookupFact, hk, hk2]
        · simp [setFact, lookupFact, hk, hk2, ih]

theorem mem_setFact {f : Facts} {k : String} {v : ℚ} {a : String × ℚ}
    (h : a ∈ setFact f k v) : a = (k, v) ∨ a ∈ f := by
  induction f with
  | nil => simpa [setFact] using h
  | cons kv rest ih =>
      by_cases hk : k = kv.1
      · subst hk
        rcases (by simpa [setFact] using h : a = (kv.1, v) ∨ a ∈ rest) with h1 | h1
        · exact Or.inl h1
        · exact Or.inr (by simp [h1])
      · rcases (by simpa [setFact, hk] using h : a = kv ∨ a ∈ setFact rest k v)
            with h1 | h1
        · exact Or.inr (by simp [h1])
        · rcases ih h1 with h2 | h2
          · exact Or.inl h2
          · exact Or.inr (by simp [h2])

theorem lookupFact_mem {f : Facts} {k : String} {v : ℚ}
    (h : lookupFact f k = some v) : (k, v) ∈ f := by
  induction f with
  | nil => simp [lookupFact] at h
  | cons kv rest ih =>
      by_cases hk : k = kv.1
      · subst hk
        simp [lookupFact] at h
        simp [← h]
      · simp [lookupFact, hk] at h
        exact List.mem_cons_of_mem _ (ih h)

/-! ### Structure lemmas about the evaluation loop -/

theorem apply_rule_of_valid (e : ℚ) {rc : ℚ} (h0 : 0 ≤ rc) (h1 : rc ≤ 1) :
    apply_rule e rc = .ok (clamp_cf (e * rc)) := by
  unfold apply_rule
  rw [if_neg (not_not_intro ⟨h0, h1⟩)]

/-- The effect of one loop iteration for a rule passing validation, as a pure
state transformer: fire (update the conclusion fact and append the trace
record) when every premise is present, otherwise leave the state unchanged. -/
def stepPure (s : Facts × List TraceEntry) (rule : Rule) :
    Facts × List TraceEntry :=
  if rule.premises.all (fun p => (lookupFact s.1 p).isSome) then
    (setFact s.1 rule.conclusion (newConclusionCf s.1 rule),
      s.2 ++ [mkTraceEntry s.1 rule])
  else s

/-- The facts component of one loop iteration for a rule passing validation. -/
def stepFacts (f : Facts) (rule : Rule) : Facts :=
  if rule.premises.all (fun p => (lookupFact f p).isSome) then
    setFact f rule.conclusion (newConclusionCf f rule)
  else f

theorem evalStep_valid (f : Facts) (t : List TraceEntry) {rule : Rule}
    (hv : validRule rule) : evalStep f t rule = .ok (stepPure (f, t) rule) := by
  obtain ⟨hop, h0, h1⟩ := hv
  unfold evalStep
  rw [if_neg (not_not_intro hop), if_neg (not_not_intro ⟨h0, h1⟩)]
  by_cases hp : (rule.premises.all fun p => (lookupFact f p).isSome) = true
  · rw [if_neg (not_not_intro hp), apply_rule_of_valid _ h0 h1]
    simp [stepPure, hp, newConclusionCf, mkTraceEntry, contribCf]
  · rw [if_pos hp]
    simp [stepPure, hp]

theorem stepPure_fst (s : Facts × List TraceEntry) (rule : Rule) :
    (stepPure s rule).1 = stepFacts s.1 rule := by
  unfold stepPure stepFacts
  by_cases hp : (rule.premises.all fun p => (lookupFact s.1 p).isSome) = true
  · simp [hp]
  · simp [hp]

theorem evalRulesAux_append (f : Facts) (t : List TraceEntry)
    (l₁ l₂ : List Rule) :
    evalRulesAux f t (l₁ ++ l₂) =
      match evalRulesAux f t l₁ with
      | .error e => .error e
      | .ok (f2, t2) => evalRulesAux f2 t2 l₂ := by
  induction l₁ generalizing f t with
  | nil => simp [evalRulesAux]
  | cons r rs ih =>
      simp only [List.cons_append, evalRulesAux]
      cases evalStep f t r with
      | error e => rfl
      | ok s =>
          cases s with
          | mk f2 t2 => simp [ih]

theorem evalRulesAux_valid {rules : List Rule}
    (hv : ∀ r ∈ rules, validRule r) (f : Facts) (t : List TraceEntry) :
    evalRulesAux f t rules = .ok (rules.foldl stepPure (f, t)) := by
  induction rules generalizing f t with
  | nil => simp [evalRulesAux]
  | cons r rs ih =>
      simp only [evalRulesAux, List.foldl]
      rw [evalStep_valid f t (hv r (by simp))]
      cases hsp : stepPure (f, t) r with
      | mk f2 t2 =>
          simpa using ih (fun r2 hr2 => hv r2 (by simp [hr2])) f2 t2

theorem foldl_stepPure_fst (rules : List Rule) (s : Facts × List TraceEntry) :
    (rules.foldl stepPure s).1 = rules.foldl stepFacts s.1 := by
  induction rules generalizing s with
  | nil => rfl
  | cons r rs ih => simp [List.foldl, ih, stepPure_fst]

theorem evalStep_ok_cases {f : Facts} {t : List TraceEntry} {rule : Rule}
    {f2 : Facts} {t2 : List TraceEntry}
    (h : evalStep f t rule = .ok (f2, t2)) :
    (f2 = f ∧ t2 = t) ∨
      (f2 = setFact f rule.conclusion (newConclusionCf f rule) ∧
        t2 = t ++ [mkTraceEntry f rule]) := by
  unfold evalStep at h
  by_cases hop : rule.operator = "AND" ∨ rule.operator = "OR"
  · rw [if_neg (not_not_intro hop)] at h
    by_cases hcf : 0 ≤ rule.rule_cf ∧ rule.rule_cf ≤ 1
    · rw [if_neg (not_not_intro hcf)] at h
      by_cases hp : (rule.premises.all fun p => (lookupFact f p).isSome) = true
      · rw [if_neg (not_not_intro hp), apply_rule_of_valid _ hcf.1 hcf.2] at h
        right
        simp only [newConclusionCf, mkTraceEntry, contribCf] at h ⊢
        cases h
        exact ⟨rfl, rfl⟩
      · rw [if_pos hp] at h
        cases h
        exact Or.inl ⟨rfl, rfl⟩
    · rw [if_pos hcf] at h
      cases h
  · rw [if_pos hop] at h
    cases h

/-! ### The range invariant on facts and trace entries -/

theorem inCF_zero : inCF 0 := ⟨by norm_num, by norm_num⟩

/-- Every CF field of a trace entry lies within [-1, 1]. -/
def TraceEntryBounded (e : TraceEntry) : Prop :=
  (∀ c ∈ e.premise_cfs, inCF c) ∧ inCF e.premise_cf ∧ inCF e.contrib_cf ∧
    (∀ p, e.previous_conclusion_cf = some p → inCF p) ∧
    inCF e.new_conclusion_cf

theorem premiseCfs_inCF {f : Facts} (hf : ∀ kv ∈ f, inCF kv.2) (rule : Rule) :
    ∀ c ∈ premiseCfs f rule, inCF c := by
  intro c hc
  obtain ⟨p, _, hp⟩ := List.mem_map.mp hc
  cases hl : lookupFact f p with
  | none => rw [hl] at hp; simpa [← hp] using inCF_zero
  | some v =>
      rw [hl] at hp
      simpa [← hp] using hf (p, v) (lookupFact_mem hl)

theorem premiseCf_inCF {f : Facts} (hf : ∀ kv ∈ f, inCF kv.2) (rule : Rule) :
    inCF (premiseCf f rule) := by
  unfold premiseCf
  by_cases hop : rule.operator = "AND"
  · rw [if_pos hop]; exact cf_and_mem (premiseCfs_inCF hf rule)
  · rw [if_neg hop]; exact cf_or_mem (premiseCfs_inCF hf rule)

theorem contribCf_inCF (f : Facts) (rule : Rule) : inCF (contribCf f rule) :=
  clamp_cf_mem _

theorem newConclusionCf_inCF (f : Facts) (rule : Rule) :
    inCF (newConclusionCf f rule) := by
  unfold newConclusionCf
  cases lookupFact f rule.conclusion with
  | none => exact contribCf_inCF f rule
  | some old => exact cf_combine_mem _ _

theorem mkTraceEntry_bounded {f : Facts} (hf : ∀ kv ∈ f, inCF kv.2)
    (rule : Rule) : TraceEntryBounded (mkTraceEntry f rule) := by
  refine ⟨premiseCfs_inCF hf rule, premiseCf_inCF hf rule,
    contribCf_inCF f rule, ?_, newConclusionCf_inCF f rule⟩
  intro p hp
  exact hf (rule.conclusion, p) (lookupFact_mem hp)

theorem evalRulesAux_bounds {rules : List Rule} {f F : Facts}
    {t T : List TraceEntry} (h : evalRulesAux f t rules = .ok (F, T))
    (hf : ∀ kv ∈ f, inCF kv.2) (ht : ∀ e ∈ t, TraceEntryBounded e) :
    (∀ kv ∈ F, inCF kv.2) ∧ ∀ e ∈ T, TraceEntryBounded e := by
  induction rules generalizing f t with
  | nil =>
      unfold evalRulesAux at h
      cases h
      exact ⟨hf, ht⟩
  | cons r rs ih =>
      unfold evalRulesAux at h
      cases hs : evalStep f t r with
      | error e => rw [hs] at h; cases h
      | ok s =>
          obtain ⟨f2, t2⟩ := s
          rw [hs] at h
          rcases evalStep_ok_cases hs with ⟨hf2, ht2⟩ | ⟨hf2, ht2⟩
          · exact ih h (hf2 ▸ hf) (ht2 ▸ ht)
          · refine ih h ?_ ?_
            · intro kv hkv
              rw [hf2] at hkv
              rcases mem_setFact hkv with h1 | h1
              · rw [h1]; exact newConclusionCf_inCF f r
              · exact hf kv h1
            · intro e he
              rw [ht2] at he
              rcases List.mem_append.mp he with h1 | h1
              · exact ht e h1
              · rw [List.mem_singleton.mp h1]
                exact mkTraceEntry_bounded hf r

/-! ### Substring containment on strings -/

/-- Whether one character list is a prefix of another. -/
def charsPrefix : List Char → List Char → Bool
  | [], _ => true
  | _ :: _, [] => false
  | a :: as, b :: bs => a == b && charsPrefix as bs

/-- Whether the first character list occurs contiguously in the second. -/
def charsInfix (nd : List Char) : List Char → Bool
  | [] => nd.isEmpty
  | c :: rest => charsPrefix nd (c :: rest) || charsInfix nd rest

/-- Python `needle in haystack` on strings (used to state whether an error
message mentions a rule id). -/
def strContains (hay nd : String) : Bool := charsInfix nd.data hay.data

/-! ### Claim theorems -/

/-- C1: `cf_combine` (the spec's serialCombine) follows the MYCIN case split:
when both operands are strictly positive it returns clamp(a + b*(1-a)); when
both are strictly negative it returns clamp(a + b*(1+a)); otherwise (mixed
sign, or a zero operand paired with anything) it returns
clamp((a+b) / (1 - min(|a|,|b|))), except that when that denominator is
exactly zero it returns clamp(a+b) instead of dividing; in every case the
returned value is the clamped result. -/
theorem cf_combine_follows_mycin_cases (a b : ℚ) :
    (a > 0 ∧ b > 0 → cf_combine a b = clamp_cf (a + b * (1 - a))) ∧
    (a < 0 ∧ b < 0 → cf_combine a b = clamp_cf (a + b * (1 + a))) ∧
    (¬ (a > 0 ∧ b > 0) → ¬ (a < 0 ∧ b < 0) →
      (mixedDenominator a b = 0 → cf_combine a b = clamp_cf (a + b)) ∧
      (mixedDenominator a b ≠ 0 →
        cf_combine a b = clamp_cf ((a + b) / mixedDenominator a b))) := by
  refine ⟨fun h => ?_, fun h => ?_, fun h1 h2 => ⟨fun hd => ?_, fun hd => ?_⟩⟩
  · unfold cf_combine
    rw [if_pos h]
  · unfold cf_combine
    rw [if_neg (by rintro ⟨ha, _⟩; exact absurd h.1 (not_lt.mpr ha.le)),
      if_pos h]
  · unfold cf_combine
    rw [if_neg h1, if_neg h2, if_pos hd, clamp_cf_idem]
  · unfold cf_combine
    rw [if_neg h1, if_neg h2, if_neg hd]

/-- Witness for C1: the both-positive branch at (0.5, 0.5) and the
zero-denominator fallback at (1, -1), instantiated from the case-split
theorem. -/
theorem cf_combine_follows_mycin_cases_witness :
    cf_combine (1/2) (1/2) = clamp_cf (1/2 + 1/2 * (1 - 1/2)) ∧
      cf_combine 1 (-1) = clamp_cf (1 + -1) :=
  ⟨(cf_combine_follows_mycin_cases (1/2) (1/2)).1 ⟨by norm_num, by norm_num⟩,
    ((cf_combine_follows_mycin_cases 1 (-1)).2.2 (by norm_num) (by norm_num)).1
      (by norm_num [mixedDenominator])⟩

/-- C4 counterexample: at (0.8, -0.8) the mixed-sign denominator computed by
`cf_combine` is 1 - min(0.8, 0.8) = 0.2, which is not zero, so the
zero-denominator clamp(a+b) fallback branch is not the branch taken there
(the division branch is); the returned value is nevertheless 0. -/
theorem cf_combine_pm08_not_fallback :
    mixedDenominator (8/10) (-8/10) ≠ 0 ∧ cf_combine (8/10) (-8/10) = 0 := by
  constructor
  · norm_num [mixedDenominator, abs, max_def, min_def]
  · norm_num [cf_combine, mixedDenominator, clamp_cf, abs, max_def, min_def]

/-- C4 (amended): `cf_combine` applied to 0.8 and -0.8 does not divide by
zero — its mixed-sign denominator is 0.2 — and resolves via the mixed-sign
division branch clamp((a+b)/denominator), returning 0.0. -/
theorem cf_combine_pm08_division_branch :
    mixedDenominator (8/10) (-8/10) = 1/5 ∧
      cf_combine (8/10) (-8/10) =
        clamp_cf ((8/10 + -8/10) / mixedDenominator (8/10) (-8/10)) ∧
      cf_combine (8/10) (-8/10) = 0 := by
  refine ⟨by norm_num [mixedDenominator, abs, max_def, min_def], ?_, ?_⟩
  · norm_num [cf_combine, mixedDenominator, clamp_cf, abs, max_def, min_def]
  · norm_num [cf_combine, mixedDenominator, clamp_cf, abs, max_def, min_def]

/-- C7: an operand equal to exactly 0 lands in the mixed-sign branch of
`cf_combine`, whose denominator is then 1, making 0 a two-sided identity on
certainty factors within [-1, 1]. -/
theorem cf_combine_zero_identity (b : ℚ) (h : inCF b) :
    cf_combine 0 b = b ∧ cf_combine b 0 = b := by
  have hd1 : mixedDenominator 0 b = 1 := by
    simp [mixedDenominator, min_eq_left (abs_nonneg b)]
  have hd2 : mixedDenominator b 0 = 1 := by
    simp [mixedDenominator, min_eq_right (abs_nonneg b)]
  constructor
  · unfold cf_combine
    rw [if_neg (by simp), if_neg (by simp), if_neg (by rw [hd1]; norm_num),
      hd1]
    rw [show (0 + b) / (1:ℚ) = b by ring]
    exact clamp_cf_of_mem h
  · unfold cf_combine
    rw [if_neg (by simp), if_neg (by simp), if_neg (by rw [hd2]; norm_num),
      hd2]
    rw [show (b + 0) / (1:ℚ) = b by ring]
    exact clamp_cf_of_mem h

/-- Witness for C7: the identity at b = -0.5, instantiated from the
theorem. -/
theorem cf_combine_zero_identity_witness :
    cf_combine 0 (-(1/2)) = -(1/2) ∧ cf_combine (-(1/2)) 0 = -(1/2) :=
  cf_combine_zero_identity (-(1/2)) ⟨by norm_num, by norm_num⟩

/-- C2: every certainty-factor value observable at the component boundary is
in [-1, 1]: whenever `evaluate_rules` returns a result, every value of the
returned fact mapping and every CF field of every trace entry (each member of
premise_cfs, premise_cf, contrib_cf, previous_conclusion_cf when present,
new_conclusion_cf) lies within the closed interval. -/
theorem evaluate_rules_cf_bounds (evidence : Facts) (rules : List Rule)
    (facts : Facts) (trace : List TraceEntry)
    (h : evaluate_rules evidence rules = .ok (facts, trace)) :
    (∀ kv ∈ facts, inCF kv.2) ∧ ∀ e ∈ trace, TraceEntryBounded e := by
  refine evalRulesAux_bounds h ?_ (by simp)
  intro kv hkv
  obtain ⟨kv0, _, hkv0⟩ := List.mem_map.mp hkv
  rw [← hkv0]
  exact clamp_cf_mem kv0.2

/-- Witness for C2: a one-rule evaluation whose conclusion CF 0.4 is certified
in range by the invariant theorem. -/
theorem evaluate_rules_cf_bounds_witness :
    evaluate_rules [("a", 8/10)] [⟨"R1", ["a"], "AND", 1/2, "b"⟩]
        = .ok ([("a", 4/5), ("b", 2/5)],
          [{ rule_id := "R1", operator := "AND", premises := ["a"],
             premise_cfs := [4/5], premise_cf := 4/5, rule_cf := 1/2,
             conclusion := "b", contrib_cf := 2/5,
             previous_conclusion_cf := none, new_conclusion_cf := 2/5 }]) ∧
      inCF (2/5) := by
  have hrun : evaluate_rules [("a", 8/10)] [⟨"R1", ["a"], "AND", 1/2, "b"⟩]
      = .ok ([("a", 4/5), ("b", 2/5)],
        [{ rule_id := "R1", operator := "AND", premises := ["a"],
           premise_cfs := [4/5], premise_cf := 4/5, rule_cf := 1/2,
           conclusion := "b", contrib_cf := 2/5,
           previous_conclusion_cf := none, new_conclusion_cf := 2/5 }]) := by
    norm_num +decide [evaluate_rules, evalRulesAux, evalStep, apply_rule,
      premiseCf, premiseCfs, lookupFact, setFact, cf_and, cf_or, cf_combine,
      clamp_cf, mixedDenominator, abs, max_def, min_def]
  exact ⟨hrun,
    (evaluate_rules_cf_bounds _ _ _ _ hrun).1 ("b", 2/5) (by simp)⟩

/-- C3: during one evaluation pass, a valid rule with a premise missing from
the current fact mapping is skipped entirely — the remaining rules continue
from an unchanged fact mapping and trace — and a valid rule whose premises
are all present fires against the current, possibly-already-updated fact
mapping: the remaining rules continue from the mapping updated at its
conclusion, with a trace entry computed from the current mapping appended. -/
theorem evaluate_rules_skip_and_current_facts :
    (∀ (f : Facts) (t : List TraceEntry) (rule : Rule) (rest : List Rule),
      validRule rule →
      (∃ p ∈ rule.premises, lookupFact f p = none) →
      evalRulesAux f t (rule :: rest) = evalRulesAux f t rest) ∧
    (∀ (f : Facts) (t : List TraceEntry) (rule : Rule) (rest : List Rule),
      validRule rule →
      (∀ p ∈ rule.premises, (lookupFact f p).isSome) →
      evalRulesAux f t (rule :: rest) =
        evalRulesAux (setFact f rule.conclusion (newConclusionCf f rule))
          (t ++ [mkTraceEntry f rule]) rest) := by
  constructor
  · intro f t rule rest hv hmiss
    obtain ⟨p, hp, hnone⟩ := hmiss
    have hall : ¬ ((rule.premises.all fun q => (lookupFact f q).isSome)
        = true) := by
      intro hall
      have := List.all_eq_true.mp hall p hp
      rw [hnone] at this
      simp at this
    simp only [evalRulesAux]
    rw [evalStep_valid f t hv]
    unfold stepPure
    rw [if_neg hall]
  · intro f t rule rest hv hpres
    have hall : (rule.premises.all fun q => (lookupFact f q).isSome)
        = true :=
      List.all_eq_true.mpr (fun p hp => hpres p hp)
    simp only [evalRulesAux]
    rw [evalStep_valid f t hv]
    unfold stepPure
    rw [if_pos hall]

/-- Witness for C3: both conjuncts instantiated concretely — a rule whose
premise `missing` is absent is skipped, and a rule whose premise `a` is
present fires from the current mapping. -/
theorem evaluate_rules_skip_and_current_facts_witness :
    (evalRulesAux [("x", 1/2)] [] [⟨"R", ["missing"], "AND", 1/2, "y"⟩]
      = evalRulesAux [("x", 1/2)] [] []) ∧
    (evalRulesAux [("a", 1)] [] [⟨"R", ["a"], "AND", 1, "b"⟩]
      = evalRulesAux
          (setFact [("a", 1)] (Rule.conclusion ⟨"R", ["a"], "AND", 1, "b"⟩)
            (newConclusionCf [("a", 1)] ⟨"R", ["a"], "AND", 1, "b"⟩))
          ([] ++ [mkTraceEntry [("a", 1)] ⟨"R", ["a"], "AND", 1, "b"⟩]) []) :=
  ⟨evaluate_rules_skip_and_current_facts.1 [("x", 1/2)] []
      ⟨"R", ["missing"], "AND", 1/2, "y"⟩ []
      ⟨Or.inl rfl, by norm_num⟩
      ⟨"missing", by simp, by simp [lookupFact]⟩,
    evaluate_rules_skip_and_current_facts.2 [("a", 1)] []
      ⟨"R", ["a"], "AND", 1, "b"⟩ []
      ⟨Or.inl rfl, by norm_num⟩
      (by intro p hp; simp at hp; simp [hp, lookupFact])⟩

/-- C5 counterexample: the rule list containing the single malformed rule
(id R1, operator XOR) makes `evaluate_rules` fail with the invalid-operator
error, whose message (the exact Python `ValueError` text) names the operator
but does not contain the offending rule id R1 anywhere — so the error does
not identify the rule id, contradicting the claim. -/
theorem invalid_operator_error_omits_rule_id :
    evaluate_rules [] [⟨"R1", ["a"], "XOR", 1/2, "b"⟩]
        = .error (.invalidOperator "XOR") ∧
      strContains (errMessage (.invalidOperator "XOR")) "R1" = false := by
  constructor
  · norm_num +decide [evaluate_rules, evalRulesAux, evalStep]
  · decide

/-- C5 (amended): `evaluate_rules` fails fast at the position of the first
malformed rule, aborting the whole evaluation: after any prefix of valid
rules, a rule with an operator outside {AND, OR} raises the invalid-operator
error identifying the offending operator value (but not the rule id), and a
rule with a recognised operator whose rule_cf lies outside [0, 1] raises the
invalid-rule-strength error identifying the offending rule id and value. -/
theorem evaluate_rules_fail_fast (evidence : Facts) (pre : List Rule)
    (rule : Rule) (rest : List Rule) (hpre : ∀ r ∈ pre, validRule r) :
    (¬ (rule.operator = "AND" ∨ rule.operator = "OR") →
      evaluate_rules evidence (pre ++ rule :: rest)
        = .error (.invalidOperator rule.operator)) ∧
    ((rule.operator = "AND" ∨ rule.operator = "OR") →
      ¬ (0 ≤ rule.rule_cf ∧ rule.rule_cf ≤ 1) →
      evaluate_rules evidence (pre ++ rule :: rest)
        = .error (.invalidRuleStrength rule.id rule.rule_cf)) := by
  have hbase :
      evaluate_rules evidence (pre ++ rule :: rest)
        = evalRulesAux
            (List.foldl stepPure
              (evidence.map (fun kv => (kv.1, clamp_cf kv.2)), []) pre).1
            (List.foldl stepPure
              (evidence.map (fun kv => (kv.1, clamp_cf kv.2)), []) pre).2
            (rule :: rest) := by
    unfold evaluate_rules
    rw [evalRulesAux_append, evalRulesAux_valid hpre]
  constructor
  · intro hop
    rw [hbase]
    simp only [evalRulesAux]
    unfold evalStep
    rw [if_pos hop]
  · intro hop hcf
    rw [hbase]
    simp only [evalRulesAux]
    unfold evalStep
    rw [if_neg (not_not_intro hop), if_pos hcf]

/-- Witness for C5: the two failure modes at concrete inputs — operator XOR
after one valid rule, and rule_cf = 1.3 — instantiated from the fail-fast
theorem. -/
theorem evaluate_rules_fail_fast_witness :
    (evaluate_rules [("a", 1)]
        [⟨"R0", ["a"], "AND", 1, "b"⟩, ⟨"R1", ["a"], "XOR", 1/2, "c"⟩]
      = .error (.invalidOperator "XOR")) ∧
    (evaluate_rules [("a", 1)] [⟨"R2", ["a"], "OR", 13/10, "c"⟩]
      = .error (.invalidRuleStrength "R2" (13/10))) :=
  ⟨(evaluate_rules_fail_fast [("a", 1)] [⟨"R0", ["a"], "AND", 1, "b"⟩]
      ⟨"R1", ["a"], "XOR", 1/2, "c"⟩ []
      (by intro r hr
          simp at hr
          rw [hr]
          exact ⟨Or.inl rfl, by norm_num⟩)).1
    (by intro h; rcases h with h | h <;> simp at h),
    (evaluate_rules_fail_fast [("a", 1)] [] ⟨"R2", ["a"], "OR", 13/10, "c"⟩ []
      (by intro r hr; simp at hr)).2 (Or.inr rfl)
    (by intro h; have := h.2; norm_num at this)⟩

/-- C6: `evaluate_rules` never exposes a partial result — for every input it
either returns a complete (facts, trace) pair or an error and nothing else
(the embedding is a pure function of the evidence, which is copied and
clamped, never mutated) — and a rule list containing a rule with rule_cf 1.3
makes it fail with the invalid-rule-strength error, returning no facts at
all. -/
theorem evaluate_rules_no_partial_result :
    (∀ (evidence : Facts) (rules : List Rule),
      (∃ res, evaluate_rules evidence rules = .ok res) ∨
      (∃ e, evaluate_rules evidence rules = .error e)) ∧
    evaluate_rules [("a", 1/2)] [⟨"R1", ["a"], "AND", 13/10, "b"⟩]
      = .error (.invalidRuleStrength "R1" (13/10)) := by
  constructor
  · intro evidence rules
    cases h : evaluate_rules evidence rules with
    | ok res => exact Or.inl ⟨res, rfl⟩
    | error e => exact Or.inr ⟨e, rfl⟩
  · norm_num +decide [evaluate_rules, evalRulesAux, evalStep]

/-! ### Order independence machinery -/

/-- The fact names a rule reads or writes: its conclusion and premises. -/
def ruleNames (r : Rule) : List String := r.conclusion :: r.premises

/-- Two fact mappings are equivalent when every lookup agrees (Python dict
equality). -/
def FactsEquiv (f g : Facts) : Prop := ∀ k, lookupFact f k = lookupFact g k

/-- The facts component of a successful evaluation, looked up at a key. -/
def resultLookup (res : Except CFError (Facts × List TraceEntry))
    (k : String) : Option (Option ℚ) :=
  match res with
  | .ok (f, _) => some (lookupFact f k)
  | .error _ => none

theorem stepFacts_fire {f : Facts} {r : Rule}
    (h : (r.premises.all fun p => (lookupFact f p).isSome) = true) :
    stepFacts f r = setFact f r.conclusion (newConclusionCf f r) := by
  unfold stepFacts
  rw [if_pos h]

theorem stepFacts_skip {f : Facts} {r : Rule}
    (h : ¬ ((r.premises.all fun p => (lookupFact f p).isSome) = true)) :
    stepFacts f r = f := by
  unfold stepFacts
  rw [if_neg h]

theorem lookup_stepFacts_ne {f : Facts} {r : Rule} {k : String}
    (h : k ≠ r.conclusion) :
    lookupFact (stepFacts f r) k = lookupFact f k := by
  unfold stepFacts
  by_cases hp : (r.premises.all fun p => (lookupFact f p).isSome) = true
  · rw [if_pos hp, lookupFact_setFact_ne _ _ h]
  · rw [if_neg hp]

theorem all_isSome_congr {l : List String} {f g : Facts}
    (h : ∀ p ∈ l, lookupFact f p = lookupFact g p) :
    (l.all fun p => (lookupFact f p).isSome)
      = (l.all fun p => (lookupFact g p).isSome) := by
  induction l with
  | nil => rfl
  | cons a as ih =>
      simp only [List.all_cons, h a (by simp),
        ih (fun p hp => h p (by simp [hp]))]

theorem premiseCfs_congr {f g : Facts} (r : Rule)
    (h : ∀ p ∈ r.premises, lookupFact f p = lookupFact g p) :
    premiseCfs f r = premiseCfs g r := by
  unfold premiseCfs
  exact List.map_congr_left (fun p hp => by rw [h p hp])

theorem newConclusionCf_congr {f g : Facts} (r : Rule)
    (hp : ∀ p ∈ r.premises, lookupFact f p = lookupFact g p)
    (hc : lookupFact f r.conclusion = lookupFact g r.conclusion) :
    newConclusionCf f r = newConclusionCf g r := by
  unfold newConclusionCf contribCf premiseCf
  rw [premiseCfs_congr r hp, hc]

theorem factsEquiv_setFact {f g : Facts} (h : FactsEquiv f g) (k : String)
    (v : ℚ) : FactsEquiv (setFact f k v) (setFact g k v) := by
  intro k2
  by_cases hk : k2 = k
  · subst hk
    rw [lookupFact_setFact_self, lookupFact_setFact_self]
  · rw [lookupFact_setFact_ne _ _ hk, lookupFact_setFact_ne _ _ hk]
    exact h k2

theorem factsEquiv_stepFacts {f g : Facts} (h : FactsEquiv f g) (r : Rule) :
    FactsEquiv (stepFacts f r) (stepFacts g r) := by
  have hpres : (r.premises.all fun p => (lookupFact f p).isSome)
      = (r.premises.all fun p => (lookupFact g p).isSome) :=
    all_isSome_congr (fun p _ => h p)
  by_cases hp : (r.premises.all fun p => (lookupFact f p).isSome) = true
  · rw [stepFacts_fire hp, stepFacts_fire (hpres ▸ hp),
      newConclusionCf_congr r (fun p _ => h p) (h r.conclusion)]
    exact factsEquiv_setFact h _ _
  · rw [stepFacts_skip hp, stepFacts_skip (hpres ▸ hp)]
    exact h

theorem factsEquiv_foldl {f g : Facts} (h : FactsEquiv f g)
    (rs : List Rule) :
    FactsEquiv (rs.foldl stepFacts f) (rs.foldl stepFacts g) := by
  induction rs generalizing f g with
  | nil => exact h
  | cons r rest ih => exact ih (factsEquiv_stepFacts h r)

theorem stepFacts_comm {r1 r2 : Rule}
    (hd : ∀ n ∈ ruleNames r1, n ∉ ruleNames r2) (f : Facts) :
    FactsEquiv (stepFacts (stepFacts f r1) r2)
      (stepFacts (stepFacts f r2) r1) := by
  have hc1n : r1.conclusion ∉ ruleNames r2 :=
    hd r1.conclusion (by simp [ruleNames])
  have hc12 : r1.conclusion ≠ r2.conclusion := by
    intro he
    exact hc1n (by simp [ruleNames, he])
  have hc1p2 : r1.conclusion ∉ r2.premises := by
    intro he
    exact hc1n (by simp [ruleNames, he])
  have hc2p1 : r2.conclusion ∉ r1.premises := by
    intro he
    exact hd r2.conclusion (by simp [ruleNames, he]) (by simp [ruleNames])
  have h1 : ∀ p ∈ r2.premises,
      lookupFact (stepFacts f r1) p = lookupFact f p := by
    intro p hp
    exact lookup_stepFacts_ne (fun he => hc1p2 (he ▸ hp))
  have h2 : ∀ p ∈ r1.premises,
      lookupFact (stepFacts f r2) p = lookupFact f p := by
    intro p hp
    exact lookup_stepFacts_ne (fun he => hc2p1 (he ▸ hp))
  have hcon12 : lookupFact (stepFacts f r1) r2.conclusion
      = lookupFact f r2.conclusion :=
    lookup_stepFacts_ne (fun he => hc12 he.symm)
  have hcon21 : lookupFact (stepFacts f r2) r1.conclusion
      = lookupFact f r1.conclusion :=
    lookup_stepFacts_ne hc12
  have hpres2 : (r2.premises.all fun p =>
      (lookupFact (stepFacts f r1) p).isSome)
      = (r2.premises.all fun p => (lookupFact f p).isSome) :=
    all_isSome_congr h1
  have hpres1 : (r1.premises.all fun p =>
      (lookupFact (stepFacts f r2) p).isSome)
      = (r1.premises.all fun p => (lookupFact f p).isSome) :=
    all_isSome_congr h2
  by_cases hP1 : (r1.premises.all fun p => (lookupFact f p).isSome) = true
  · by_cases hP2 : (r2.premises.all fun p => (lookupFact f p).isSome) = true
    · have hP2s : (r2.premises.all fun p =>
          (lookupFact (stepFacts f r1) p).isSome) = true := by
        rw [hpres2]; exact hP2
      have hP1s : (r1.premises.all fun p =>
          (lookupFact (stepFacts f r2) p).isSome) = true := by
        rw [hpres1]; exact hP1
      rw [stepFacts_fire hP2s, stepFacts_fire hP1s,
        newConclusionCf_congr r2 h1 hcon12,
        newConclusionCf_congr r1 h2 hcon21,
        stepFacts_fire hP1, stepFacts_fire hP2]
      intro k
      by_cases hk2 : k = r2.conclusion
      · subst hk2
        rw [lookupFact_setFact_self,
          lookupFact_setFact_ne _ _ (Ne.symm hc12), lookupFact_setFact_self]
      · rw [lookupFact_setFact_ne _ _ hk2]
        by_cases hk1 : k = r1.conclusion
        · subst hk1
          rw [lookupFact_setFact_self, lookupFact_setFact_self]
        · rw [lookupFact_setFact_ne _ _ hk1, lookupFact_setFact_ne _ _ hk1,
            lookupFact_setFact_ne _ _ hk2]
    · have hP2s : ¬ ((r2.premises.all fun p =>
          (lookupFact (stepFacts f r1) p).isSome) = true) := by
        rw [hpres2]; exact hP2
      rw [stepFacts_skip hP2s, stepFacts_skip hP2]
      exact fun k => rfl
  · by_cases hP2 : (r2.premises.all fun p => (lookupFact f p).isSome) = true
    · have hP1s : ¬ ((r1.premises.all fun p =>
          (lookupFact (stepFacts f r2) p).isSome) = true) := by
        rw [hpres1]; exact hP1
      rw [stepFacts_skip hP1, stepFacts_skip hP1s]
      exact fun k => rfl
    · rw [stepFacts_skip hP1, stepFacts_skip hP2, stepFacts_skip hP1]
      exact fun k => rfl

/-! ### Lemmas about the classifier evidence builder -/

theorem string_append_left_cancel {s a b : String} (h : s ++ a = s ++ b) :
    a = b := by
  have hd := congrArg String.data h
  rw [String.data_append, String.data_append] at hd
  exact String.ext (List.append_cancel_left hd)

theorem factValue_eq (item : TopkItem) :
    factValue item = max 0 (min 1 (item.prob.getD 0)) :=
  clamp_cf_of_mem ⟨le_trans (by norm_num) (le_max_left 0 _),
    max_le (by norm_num) (min_le_left _ _)⟩

theorem map_fst_setFact (m : Facts) (k : String) (v : ℚ) :
    (setFact m k v).map Prod.fst =
      if k ∈ m.map Prod.fst then m.map Prod.fst
      else m.map Prod.fst ++ [k] := by
  induction m with
  | nil => simp [setFact]
  | cons kv rest ih =>
      by_cases hk : k = kv.1
      · simp [setFact, hk]
      · simp only [setFact, if_neg hk, List.map_cons, ih]
        by_cases hmem : k ∈ rest.map Prod.fst
        · simp [hmem, hk]
        · simp [hmem, hk]

theorem nodup_keys_setFact {m : Facts} (h : (m.map Prod.fst).Nodup)
    (k : String) (v : ℚ) : ((setFact m k v).map Prod.fst).Nodup := by
  rw [map_fst_setFact]
  by_cases hmem : k ∈ m.map Prod.fst
  · simpa [hmem] using h
  · rw [if_neg hmem]
    refine h.append (List.nodup_singleton k) ?_
    intro a ha hb
    rw [List.mem_singleton] at hb
    subst hb
    exact hmem ha

theorem build_keys_nodup_aux (l : List TopkItem) (acc : Facts)
    (hacc : (acc.map Prod.fst).Nodup) :
    ((l.foldl (fun evidence item => setFact evidence (factName item)
      (factValue item)) acc).map Prod.fst).Nodup := by
  induction l generalizing acc with
  | nil => exact hacc
  | cons it rest ih => exact ih _ (nodup_keys_setFact hacc _ _)

theorem build_keys_nodup (topk : List TopkItem) :
    ((build_evidence_from_model topk).map Prod.fst).Nodup :=
  build_keys_nodup_aux topk [] (by simp)

theorem lookup_build_foldl_untouched {l : List TopkItem} {k : String}
    (hl : ∀ y ∈ l, factName y ≠ k) (acc : Facts) :
    lookupFact (l.foldl (fun evidence item => setFact evidence (factName item)
      (factValue item)) acc) k = lookupFact acc k := by
  induction l generalizing acc with
  | nil => rfl
  | cons it rest ih =>
      rw [List.foldl_cons, ih (fun y hy => hl y (by simp [hy]))]
      exact lookupFact_setFact_ne acc (factValue it)
        (fun he => hl it (by simp) he.symm)

theorem build_lookup_last (xs : List TopkItem) (x : TopkItem)
    {ys : List TopkItem} (hys : ∀ y ∈ ys, factName y ≠ factName x) :
    lookupFact (build_evidence_from_model (xs ++ x :: ys)) (factName x)
      = some (factValue x) := by
  unfold build_evidence_from_model
  rw [List.foldl_append, List.foldl_cons,
    lookup_build_foldl_untouched hys, lookupFact_setFact_self]

/-- C9: `build_evidence_from_model` produces, for each (label, probability)
pair of an input whose stripped labels are pairwise distinct, a fact named
img_ ++ label whose value is the probability clamped to [0, 1]; in
particular the input [(mel, 0.62)] yields exactly the mapping
[(img_mel, 0.62)], and a probability of 1.4 yields the value 1.0. -/
theorem build_evidence_from_model_spec :
    (∀ (topk : List TopkItem),
      (topk.map (fun i => stripStr (i.label.getD ""))).Nodup →
      ∀ item ∈ topk,
        lookupFact (build_evidence_from_model topk) (factName item)
          = some (max 0 (min 1 (item.prob.getD 0)))) ∧
    build_evidence_from_model [⟨some "mel", some (62/100)⟩]
      = [("img_mel", 62/100)] ∧
    build_evidence_from_model [⟨some "x", some (14/10)⟩]
      = [("img_x", 1)] := by
  refine ⟨?_, ?_, ?_⟩
  · intro topk hnd item hmem
    obtain ⟨xs, ys, rfl⟩ := List.append_of_mem hmem
    have hys : ∀ y ∈ ys,
        stripStr (y.label.getD "") ≠ stripStr (item.label.getD "") := by
      intro y hy he
      rw [List.map_append, List.map_cons] at hnd
      have h2 := (List.nodup_append.mp hnd).2.1
      exact (List.nodup_cons.mp h2).1 (he ▸ List.mem_map_of_mem _ hy)
    have hys2 : ∀ y ∈ ys, factName y ≠ factName item := fun y hy he =>
      hys y hy (string_append_left_cancel he)
    rw [build_lookup_last xs item hys2, factValue_eq]
  · norm_num +decide [build_evidence_from_model, setFact, factName,
      factValue, stripStr, clamp_cf, max_def, min_def]
  · norm_num +decide [build_evidence_from_model, setFact, factName,
      factValue, stripStr, clamp_cf, max_def, min_def]

/-- Witness for C9: the pairwise-distinct-labels hypothesis discharged at the
singleton input [(mel, 0.62)], instantiated from the theorem. -/
theorem build_evidence_from_model_spec_witness :
    lookupFact (build_evidence_from_model [⟨some "mel", some (62/100)⟩])
        (factName ⟨some "mel", some (62/100)⟩)
      = some (max 0 (min 1 ((62:ℚ)/100))) := by
  have h := build_evidence_from_model_spec.1 [⟨some "mel", some (62/100)⟩]
    (by simp) ⟨some "mel", some (62/100)⟩ (by simp)
  simpa using h

/-- C10: when the input contains several pairs with the same stripped label,
the returned mapping holds a single fact for that label, and its value is the
clamped probability of the last such pair (later occurrences overwrite
earlier ones): for every decomposition xs ++ x :: ys where nothing in ys
shares the stripped label of x, the fact named for x holds the clamped
probability of x and occurs exactly once among the keys. -/
theorem build_evidence_from_model_last_wins (xs : List TopkItem)
    (x : TopkItem) (ys : List TopkItem)
    (hys : ∀ y ∈ ys,
      stripStr (y.label.getD "") ≠ stripStr (x.label.getD "")) :
    lookupFact (build_evidence_from_model (xs ++ x :: ys)) (factName x)
        = some (factValue x) ∧
      ((build_evidence_from_model (xs ++ x :: ys)).map Prod.fst).count
        (factName x) = 1 := by
  have hys2 : ∀ y ∈ ys, factName y ≠ factName x := fun y hy he =>
    hys y hy (string_append_left_cancel he)
  have hlook := build_lookup_last xs x hys2
  refine ⟨hlook, ?_⟩
  exact List.count_eq_one_of_mem (build_keys_nodup _)
    (List.mem_map.mpr ⟨(factName x, factValue x), lookupFact_mem hlook, rfl⟩)

/-- Witness for C10: two pairs labelled l with probabilities 0.3 then 0.9 —
the returned mapping holds the single fact img_l with value 0.9,
instantiated from the theorem. -/
theorem build_evidence_from_model_last_wins_witness :
    lookupFact (build_evidence_from_model
        ([⟨some "l", some (3/10)⟩] ++ ⟨some "l", some (9/10)⟩ :: []))
        (factName ⟨some "l", some (9/10)⟩)
      = some (factValue ⟨some "l", some (9/10)⟩) ∧
    ((build_evidence_from_model
        ([⟨some "l", some (3/10)⟩] ++ ⟨some "l", some (9/10)⟩ :: [])).map
      Prod.fst).count (factName ⟨some "l", some (9/10)⟩) = 1 :=
  build_evidence_from_model_last_wins [⟨some "l", some (3/10)⟩]
    ⟨some "l", some (9/10)⟩ [] (by intro y hy; simp at hy)

/-- C8: for every valid rule list, swapping two adjacent rules that share no
fact names (each name among one rule's premises and conclusion is absent from
the other's) leaves the final fact mapping returned by `evaluate_rules`
unchanged (as a mapping, i.e. under every lookup); and there are an initial
fact mapping and two rules, the first's conclusion being the second's
premise, for which swapping the two rules changes the final fact mapping. -/
theorem evaluate_rules_order_effects :
    (∀ (evidence : Facts) (pre post : List Rule) (r1 r2 : Rule),
      (∀ r ∈ pre ++ r1 :: r2 :: post, validRule r) →
      (∀ n ∈ ruleNames r1, n ∉ ruleNames r2) →
      ∃ F T G U,
        evaluate_rules evidence (pre ++ r1 :: r2 :: post) = .ok (F, T) ∧
        evaluate_rules evidence (pre ++ r2 :: r1 :: post) = .ok (G, U) ∧
        ∀ k, lookupFact F k = lookupFact G k) ∧
    ((⟨"RB", ["b"], "AND", 1, "c"⟩ : Rule).premises
        = [(⟨"RA", ["a"], "AND", 1, "b"⟩ : Rule).conclusion] ∧
      ∃ F T G U,
        evaluate_rules [("a", 1)]
            [⟨"RA", ["a"], "AND", 1, "b"⟩, ⟨"RB", ["b"], "AND", 1, "c"⟩]
          = .ok (F, T) ∧
        evaluate_rules [("a", 1)]
            [⟨"RB", ["b"], "AND", 1, "c"⟩, ⟨"RA", ["a"], "AND", 1, "b"⟩]
          = .ok (G, U) ∧
        ¬ (∀ k, lookupFact F k = lookupFact G k)) := by
  constructor
  · intro ev pre post r1 r2 hvalid hd
    have hvalid2 : ∀ r ∈ pre ++ r2 :: r1 :: post, validRule r := by
      intro r hr
      apply hvalid
      simp only [List.mem_append, List.mem_cons] at hr ⊢
      tauto
    have hv1 := evalRulesAux_valid hvalid
      (ev.map (fun kv => (kv.1, clamp_cf kv.2))) []
    have hv2 := evalRulesAux_valid hvalid2
      (ev.map (fun kv => (kv.1, clamp_cf kv.2))) []
    rcases hp1 : List.foldl stepPure
        (ev.map (fun kv => (kv.1, clamp_cf kv.2)), [])
        (pre ++ r1 :: r2 :: post) with ⟨F, T⟩
    rcases hp2 : List.foldl stepPure
        (ev.map (fun kv => (kv.1, clamp_cf kv.2)), [])
        (pre ++ r2 :: r1 :: post) with ⟨G, U⟩
    refine ⟨F, T, G, U, ?_, ?_, ?_⟩
    · unfold evaluate_rules
      rw [hv1, hp1]
    · unfold evaluate_rules
      rw [hv2, hp2]
    · have hF : F = (pre ++ r1 :: r2 :: post).foldl stepFacts
          (ev.map (fun kv => (kv.1, clamp_cf kv.2))) := by
        have hh := foldl_stepPure_fst (pre ++ r1 :: r2 :: post)
          (ev.map (fun kv => (kv.1, clamp_cf kv.2)), [])
        rw [hp1] at hh
        exact hh
      have hG : G = (pre ++ r2 :: r1 :: post).foldl stepFacts
          (ev.map (fun kv => (kv.1, clamp_cf kv.2))) := by
        have hh := foldl_stepPure_fst (pre ++ r2 :: r1 :: post)
          (ev.map (fun kv => (kv.1, clamp_cf kv.2)), [])
        rw [hp2] at hh
        exact hh
      intro k
      rw [hF, hG, List.foldl_append, List.foldl_append]
      simp only [List.foldl_cons]
      exact factsEquiv_foldl (stepFacts_comm hd _) post k
  · refine ⟨rfl, [("a", 1), ("b", 1), ("c", 1)],
      [⟨"RA", "AND", ["a"], [1], 1, 1, "b", 1, none, 1⟩,
        ⟨"RB", "AND", ["b"], [1], 1, 1, "c", 1, none, 1⟩],
      [("a", 1), ("b", 1)],
      [⟨"RA", "AND", ["a"], [1], 1, 1, "b", 1, none, 1⟩], ?_, ?_, ?_⟩
    · norm_num +decide [evaluate_rules, evalRulesAux, evalStep, apply_rule,
        premiseCf, premiseCfs, lookupFact, setFact, cf_and, cf_or,
        cf_combine, clamp_cf, mixedDenominator, abs, max_def, min_def]
    · norm_num +decide [evaluate_rules, evalRulesAux, evalStep, apply_rule,
        premiseCf, premiseCfs, lookupFact, setFact, cf_and, cf_or,
        cf_combine, clamp_cf, mixedDenominator, abs, max_def, min_def]
    · intro hall
      have hc := hall "c"
      norm_num +decide [lookupFact] at hc

/-- Witness for C8: two rules touching disjoint fact names ({b, a} and
{d, c}) evaluated in both orders from the same evidence, the hypotheses
discharged concretely; the instantiated theorem gives agreement of the final
mappings at the key b. -/
theorem evaluate_rules_order_effects_witness :
    resultLookup (evaluate_rules [("a", 1), ("c", 1)]
        [⟨"R1", ["a"], "AND", 1, "b"⟩, ⟨"R2", ["c"], "AND", 1, "d"⟩]) "b"
      = resultLookup (evaluate_rules [("a", 1), ("c", 1)]
        [⟨"R2", ["c"], "AND", 1, "d"⟩, ⟨"R1", ["a"], "AND", 1, "b"⟩]) "b" := by
  obtain ⟨F, T, G, U, h1, h2, h3⟩ :=
    evaluate_rules_order_effects.1 [("a", 1), ("c", 1)] [] []
      ⟨"R1", ["a"], "AND", 1, "b"⟩ ⟨"R2", ["c"], "AND", 1, "d"⟩
      (by intro r hr
          simp only [List.nil_append, List.mem_cons, List.not_mem_nil,
            or_false] at hr
          rcases hr with h | h <;> (rw [h]; exact ⟨Or.inl rfl, by norm_num⟩))
      (by intro n hn
          simp only [ruleNames, List.mem_cons, List.not_mem_nil,
            or_false] at hn ⊢
          rcases hn with h | h <;> simp [h])
  rw [show ([] ++ (⟨"R1", ["a"], "AND", 1, "b"⟩ : Rule) ::
      (⟨"R2", ["c"], "AND", 1, "d"⟩ : Rule) :: [] : List Rule)
      = [⟨"R1", ["a"], "AND", 1, "b"⟩, ⟨"R2", ["c"], "AND", 1, "d"⟩]
      from rfl] at h1
  rw [show ([] ++ (⟨"R2", ["c"], "AND", 1, "d"⟩ : Rule) ::
      (⟨"R1", ["a"], "AND", 1, "b"⟩ : Rule) :: [] : List Rule)
      = [⟨"R2", ["c"], "AND", 1, "d"⟩, ⟨"R1", ["a"], "AND", 1, "b"⟩]
      from rfl] at h2
  rw [h1, h2]
  unfold resultLookup
  exact congrArg some (h3 "b")

end CertaintyFactors
